import Mathlib

/-!
Verification of the c2FmZQ server core against its specification.

The development shallowly embeds the Go source:
* `Masterkey` — the master-key vault (`masterkey` package): CBC+HMAC record
  encryption (`Encrypt`/`Decrypt`), passphrase wrapping (`Save`/`Read`),
  and `NewEncryptedKey`.
* `Database` — the identity and contact layer (`database` package):
  `AddUser`, `addContactToUser`, `removeAllContacts`, `ContactUpdates`.

Bytes are modelled as `Nat` values; byte strings as `List Nat`.  The
cryptographic primitives that live outside this repository (AES-256 block
cipher, HMAC-SHA-256, AES-GCM, PBKDF2) are parameters of the embedding;
their standard properties are hypotheses of the theorems that need them,
and each witness instantiates them with concrete functions.
-/

namespace Masterkey

/-- A master key, modelled by the functions the key induces: the AES-256
block encryption/decryption under the key (`encB`/`decB`, acting on 16-byte
blocks) and HMAC-SHA-256 keyed by the key (`hash`, from `MasterKey.Hash`). -/
structure MK where
  encB : List Nat → List Nat
  decB : List Nat → List Nat
  hash : List Nat → List Nat

/-- Bytewise XOR of two byte strings (CBC chaining step). -/
def xorB (a b : List Nat) : List Nat := List.zipWith Nat.xor a b

/-- Split a byte string into consecutive 16-byte blocks (fuelled so that the
definition reduces by `rfl`; the fuel `l.length` always suffices). -/
def toBlocksAux : Nat → List Nat → List (List Nat)
  | 0, _ => []
  | _, [] => []
  | fuel + 1, a :: l => (a :: l).take 16 :: toBlocksAux fuel ((a :: l).drop 16)

/-- Split a byte string into consecutive 16-byte blocks. -/
def toBlocks (l : List Nat) : List (List Nat) := toBlocksAux l.length l

/-- CBC encryption over a list of plaintext blocks:
`c_i = E(p_i XOR c_{i-1})` with `c_0` the IV (`cipher.NewCBCEncrypter`). -/
def cbcEnc (E : List Nat → List Nat) : List Nat → List (List Nat) → List (List Nat)
  | _, [] => []
  | prev, b :: bs =>
    let c := E (xorB b prev)
    c :: cbcEnc E c bs

/-- CBC decryption over a list of ciphertext blocks:
`p_i = D(c_i) XOR c_{i-1}` with `c_0` the IV (`cipher.NewCBCDecrypter`). -/
def cbcDec (D : List Nat → List Nat) : List Nat → List (List Nat) → List (List Nat)
  | _, [] => []
  | prev, b :: bs => xorB (D b) prev :: cbcDec D b bs

/-- The pad size chosen by `MasterKey.Encrypt`:
`padSize := 16 - (len(data)+1)%16`. -/
def padSize (n : Nat) : Nat := 16 - (n + 1) % 16

/-- The CBC ciphertext portion of `MasterKey.Encrypt`: the padded plaintext
`pData = [padSize] || data || randomTail` encrypted in CBC mode under the
master key.  `padRand` stands for the random tail read from `rand.Reader`
(its length is `padSize data.length`). -/
def encBody (mk : MK) (iv padRand data : List Nat) : List Nat :=
  (cbcEnc mk.encB iv (toBlocks (padSize data.length :: (data ++ padRand)))).flatten

/-- `MasterKey.Encrypt`: output is `iv || CBC(pData) || HMAC(CBC(pData))`,
with the random IV and the random pad tail passed in explicitly. -/
def Encrypt (mk : MK) (iv padRand data : List Nat) : List Nat :=
  let encData := encBody mk iv padRand data
  iv ++ encData ++ mk.hash encData

/-- Possible outcomes of `MasterKey.Decrypt`: plaintext bytes, the
`errors.New("invalid hmac")` error, or a Go runtime panic (out-of-range
slicing or `CryptBlocks` on a non-block-multiple input). -/
inductive DecResult where
  | ok (plaintext : List Nat)
  | badMac
  | panic'
deriving DecidableEq, Repr

/-- `MasterKey.Decrypt`, with Go's runtime bounds checks made explicit:
`iv := data[:16]`, `encData := data[16 : len-32]`, `hm := data[len-32:]`,
HMAC verification, CBC decryption, then unpadding
`dec[1 : len(dec)-int(dec[0])]`. -/
def Decrypt (mk : MK) (data : List Nat) : DecResult :=
  if data.length < 48 then .panic'
  else
    let iv := data.take 16
    let encData := (data.drop 16).take (data.length - 48)
    let hm := data.drop (data.length - 32)
    if hm ≠ mk.hash encData then .badMac
    else if (data.length - 48) % 16 ≠ 0 then .panic'
    else
      match (cbcDec mk.decB iv (toBlocks encData)).flatten with
      | [] => .panic'
      | p :: rest => if rest.length < p then .panic' else .ok (rest.take (rest.length - p))

/-- The size of an encrypted key (`EncryptedKeySize` constant). -/
def EncryptedKeySize : Nat := 96

/-- `MasterKey.NewEncryptedKey`: generates a fresh 32-byte `key` (passed in
explicitly, like the IV and pad randomness) and returns its encryption. -/
def NewEncryptedKey (mk : MK) (key iv padRand : List Nat) : List Nat :=
  Encrypt mk iv padRand key

/-- Flip the bit at absolute bit position `p` of a byte string
(byte `p / 8`, bit `p % 8`). -/
def flipBit (l : List Nat) (p : Nat) : List Nat :=
  l.set (p / 8) ((l.getD (p / 8) 0) ^^^ (1 <<< (p % 8)))

/-- A concrete instantiation of the primitives: the identity block cipher
and the constant hash.  Used to evaluate the embedding on explicit inputs. -/
def idMK : MK where
  encB := id
  decB := id
  hash := fun _ => List.replicate 32 0

/-- The primitives used by `Save`/`Read` that live outside the repository:
PBKDF2-HMAC-SHA-256 key derivation (`kdf passphrase salt iterations`) and
AES-256-GCM sealing/opening (`gcmSeal`/`gcmOpen`, taking the derived key,
the nonce and the plaintext/ciphertext). -/
structure WrapPrims where
  kdf : List Nat → List Nat → Nat → List Nat
  gcmSeal : List Nat → List Nat → List Nat → List Nat
  gcmOpen : List Nat → List Nat → List Nat → Option (List Nat)

/-- The PBKDF2 iteration count chosen by `Save`:
`numIter := 200000`, or `10` when the passphrase is empty. -/
def numIterFor (passphrase : List Nat) : Nat := if passphrase = [] then 10 else 200000

/-- `binary.LittleEndian.PutUint32`. -/
def putU32le (n : Nat) : List Nat := [n % 256, n / 256 % 256, n / 65536 % 256, n / 16777216 % 256]

/-- `binary.LittleEndian.Uint32` of the first four bytes. -/
def getU32le (b : List Nat) : Nat :=
  b.getD 0 0 + 256 * b.getD 1 0 + 65536 * b.getD 2 0 + 16777216 * b.getD 3 0

/-- `MasterKey.Save` (the bytes written to the file):
`version(1) || salt(16) || numIter(u32le) || nonce(12) || GCM_seal(key)`.
The random salt and nonce are passed in explicitly.  Note that
`gcm.Seal(nonce, nonce, mk.key, nil)` in Go returns `nonce || sealed`. -/
def Save (w : WrapPrims) (passphrase salt nonce mkey : List Nat) : List Nat :=
  let numIter := numIterFor passphrase
  let dk := w.kdf passphrase salt numIter
  1 :: (salt ++ putU32le numIter ++ (nonce ++ w.gcmSeal dk nonce mkey))

/-- Possible outcomes of `masterkey.Read`: a key, an ordinary error return,
a `log.Fatalf` process abort, or a Go runtime panic (out-of-range slicing). -/
inductive ReadResult where
  | ok (key : List Nat)
  | err
  | fatal
  | panic'
deriving DecidableEq, Repr

/-- `masterkey.Read` applied to the bytes of the key file, with Go's runtime
bounds checks made explicit.  The version byte is checked against 1 with
`log.Fatalf` (process abort) on mismatch; then salt, iteration count and
nonce are split off and the remainder is opened with AES-GCM under the
PBKDF2-derived key. -/
def Read (w : WrapPrims) (passphrase fileBytes : List Nat) : ReadResult :=
  match fileBytes with
  | [] => .panic'
  | version :: b =>
    if version ≠ 1 then .fatal
    else if b.length < 16 then .panic'
    else
      let salt := b.take 16
      let b₂ := b.drop 16
      if b₂.length < 4 then .panic'
      else
        let numIter := getU32le (b₂.take 4)
        let b₃ := b₂.drop 4
        let dk := w.kdf passphrase salt numIter
        if b₃.length < 12 then .panic'
        else
          let nonce := b₃.take 12
          let encMasterKey := b₃.drop 12
          match w.gcmOpen dk nonce encMasterKey with
          | some masterKey => .ok masterKey
          | none => .err

/-- Concrete wrap primitives used to evaluate the embedding: the derived key
is the passphrase itself, sealing prepends the key, opening checks it. -/
def idWrap : WrapPrims where
  kdf := fun p _ _ => p
  gcmSeal := fun k _ m => k ++ m
  gcmOpen := fun k _ c => if c.take k.length = k then some (c.drop k.length) else none

end Masterkey

namespace Database

/-- An entry of the `users.dat` user list (`userList` struct). -/
structure UserListEntry where
  userID : Int
  email : String
deriving DecidableEq, Repr

/-- `math.MaxInt32`. -/
def maxInt32 : Int := 2147483647

/-- The retry loop of `Database.AddUser`: draw `bi` from `rand.Int(rand.Reader,
big.NewInt(MaxInt32-1000000))`, set `uid := bi + 1000000`, and retry while
`uid` is already taken.  The random draws are passed in as a list; `none`
models the (probability-zero) case of exhausting the supplied draws. -/
def pickUid (uids : List Int) (draws : List Int) : Option Int :=
  match draws with
  | [] => none
  | d :: rest =>
    let uid := d + 1000000
    if uid ∈ uids then pickUid uids rest else some uid

/-- Possible outcomes of `Database.AddUser` on the user-list record. -/
inductive AddUserResult where
  | alreadyExists
  | ok (newList : List UserListEntry) (uid : Int)
  | outOfDraws
deriving DecidableEq, Repr

/-- `Database.AddUser`, restricted to its effect on the `users.dat` list held
open for update: return `os.ErrExist` if the email is already present,
otherwise sample a fresh user ID (rejecting collisions against every ID in
the list) and append the new entry before committing. -/
def AddUser (ul : List UserListEntry) (email : String) (draws : List Int) : AddUserResult :=
  if ul.any (fun e => e.email = email) then .alreadyExists
  else
    match pickUid (ul.map (fun e => e.userID)) draws with
    | none => .outOfDraws
    | some uid => .ok (ul ++ [⟨uid, email⟩]) uid

/-- A contact entry (`Contact` struct); `publicKey` and `dateUsed` are
carried opaquely. -/
structure Contact where
  userID : Int
  email : String
  publicKey : String
  dateModified : Int
deriving DecidableEq, Repr

/-- The numeric value of `stingle.DeleteEventContact`.  Modelled from the
spec: the `stingle` package is not under `src/`; the spec only fixes that
*contact* is one of the delete-event types, and no claim depends on the
concrete number. -/
def deleteEventContact : Nat := 6

/-- A delete event (`DeleteEvent` struct); `file` holds the stringified
user ID for contact events, modelled as the ID itself. -/
structure DeleteEvent where
  file : Int
  date : Int
  evType : Nat
deriving DecidableEq, Repr

/-- A user's contact list (`ContactList` struct).  The Go maps
`Contacts map[int64]*Contact` and `In map[int64]bool` are modelled as an
association list keyed by user ID and a key list. -/
structure CList where
  contacts : List (Int × Contact)
  inSet : List Int
  deletes : List DeleteEvent
deriving DecidableEq, Repr

/-- The global assignment of contact lists to user IDs (the contents of
every `home/<userID>/contact-list.dat`). -/
def St : Type := Int → CList

/-- Update one user's contact list in the global state. -/
def upd (st : St) (u : Int) (f : CList → CList) : St :=
  fun v => if v = u then f (st v) else st v

/-- Go `delete(m, k)` on the `Contacts` map. -/
def mapDel (m : List (Int × Contact)) (k : Int) : List (Int × Contact) :=
  m.filter (fun e => e.1 ≠ k)

/-- Go `m[k] = v` on the `Contacts` map. -/
def mapIns (m : List (Int × Contact)) (k : Int) (v : Contact) : List (Int × Contact) :=
  (k, v) :: mapDel m k

/-- Go `delete(m, k)` on the `In` set. -/
def setDel (s : List Int) (k : Int) : List Int := s.filter (fun x => x ≠ k)

/-- Go `m[k] = true` on the `In` set. -/
def setIns (s : List Int) (k : Int) : List Int := if k ∈ s then s else k :: s

/-- `Database.addContactToUser user contact`: under one `OpenManyForUpdate`
over both contact lists, insert `contact` into `user`'s `Contacts` and mark
`user` in `contact`'s `In`.  `email`/`pk` are the contact's fields and `now`
is `nowInMS()`. -/
def addContactToUser (st : St) (userID contactID : Int) (email pk : String) (now : Int) : St :=
  let st₁ := upd st userID (fun c =>
    { c with contacts := mapIns c.contacts contactID ⟨contactID, email, pk, now⟩ })
  upd st₁ contactID (fun c => { c with inSet := setIns c.inSet userID })

/-- One iteration of the `removeAllContacts` loop body for `uid`, in source
order:
`delete(uc[user.UserID].In, uid)`;
`delete(cl.Contacts, user.UserID)` and append a contact delete event naming
`user` to `cl.Deletes` (where `cl = uc[uid]`);
`delete(uc[uid].In, user.UserID)`;
`delete(uc[uid].Contacts, uid)`;
append a contact delete event naming `uid` to `uc[user.UserID].Deletes`. -/
def rmStep (userID now : Int) (st : St) (uid : Int) : St :=
  let st₁ := upd st userID (fun c => { c with inSet := setDel c.inSet uid })
  let st₂ := upd st₁ uid (fun c =>
    { c with contacts := mapDel c.contacts userID,
             deletes := c.deletes ++ [⟨userID, now, deleteEventContact⟩] })
  let st₃ := upd st₂ uid (fun c => { c with inSet := setDel c.inSet userID })
  let st₄ := upd st₃ uid (fun c => { c with contacts := mapDel c.contacts uid })
  upd st₄ userID (fun c => { c with deletes := c.deletes ++ [⟨uid, now, deleteEventContact⟩] })

/-- The set of user IDs whose contact lists `removeAllContacts` opens:
the user itself, every key of its `Contacts` map and every member of its
`In` set (the Go `uids` map; membership is what matters). -/
def uidsOf (st : St) (userID : Int) : List Int :=
  userID :: ((st userID).contacts.map (fun e => e.1) ++ (st userID).inSet)

/-- `Database.removeAllContacts user`: open the contact list of every ID in
`uidsOf` in one `OpenManyForUpdate` transaction and run the loop body for
each; `order` is the (nondeterministic) Go map iteration order over those
IDs. -/
def removeAllContacts (st : St) (userID now : Int) (order : List Int) : St :=
  order.foldl (rmStep userID now) st

/-- The contact-symmetry invariant of the spec:
`A.contacts[B].exists ⇔ B.in[A]`. -/
def symmetric (st : St) : Prop :=
  ∀ a b : Int, (∃ e ∈ (st a).contacts, e.1 = b) ↔ a ∈ (st b).inSet

/-- A concrete two-user state used to evaluate `removeAllContacts`:
user 1 has user 2 as a contact, and user 2's `In` set records user 1. -/
def stPair : St := fun v =>
  if v = 1 then ⟨[(2, ⟨2, "b", "pk2", 100⟩)], [], []⟩
  else if v = 2 then ⟨[], [1], []⟩
  else ⟨[], [], []⟩

/-- The comparator of `Database.ContactUpdates`' `sort.Slice` call, as the
non-strict order it sorts by: ascending `DateModified`, ties broken by
ascending `Email`. -/
def lexLe (a b : Contact) : Bool :=
  if a.dateModified = b.dateModified then decide (a.email ≤ b.email)
  else decide (a.dateModified < b.dateModified)

/-- `Database.ContactUpdates user ts`, applied to the enumeration `l` of the
user's `Contacts` map: keep the contacts with `DateModified > ts` and sort
by the comparator.  Modelled from the spec for the missing `stingle.Contact`
type: timestamps are millisecond integers and the output ordering is by
`dateModified` ascending with the email as tie-break. -/
def ContactUpdates (l : List Contact) (ts : Int) : List Contact :=
  (l.filter (fun c => ts < c.dateModified)).mergeSort lexLe

/-- The strict version of `lexLe` (used to state uniqueness of positions). -/
def lexLt (a b : Contact) : Prop :=
  a.dateModified < b.dateModified ∨ (a.dateModified = b.dateModified ∧ a.email < b.email)

end Database

namespace Masterkey

theorem toBlocksAux_congr :
    ∀ (f₁ f₂ : Nat) (l : List Nat), l.length ≤ f₁ → l.length ≤ f₂ →
      toBlocksAux f₁ l = toBlocksAux f₂ l := by
  intro f₁
  induction f₁ with
  | zero =>
    intro f₂ l h₁ _
    have : l = [] := List.length_eq_zero.mp (Nat.le_zero.mp h₁)
    subst this
    cases f₂ <;> rfl
  | succ n ih =>
    intro f₂ l h₁ h₂
    cases l with
    | nil => cases f₂ <;> rfl
    | cons a t =>
      cases f₂ with
      | zero => simp at h₂
      | succ m =>
        simp only [toBlocksAux]
        congr 1
        apply ih <;> simp only [List.length_drop, List.length_cons] at h₁ h₂ ⊢ <;> omega

/-- Unfolding equation for `toBlocks`. -/
theorem toBlocks_eq (l : List Nat) :
    toBlocks l = if l = [] then [] else l.take 16 :: toBlocks (l.drop 16) := by
  cases l with
  | nil => rfl
  | cons a t =>
    simp only [toBlocks, List.length_cons, toBlocksAux, List.cons_ne_self _ _, if_neg,
      reduceCtorEq, ite_false]
    congr 1
    apply toBlocksAux_congr
    · simp only [List.length_drop, List.length_cons]
      omega
    · exact Nat.le_refl _

theorem join_toBlocks_aux : ∀ (n : Nat) (l : List Nat), l.length ≤ n →
    (toBlocks l).flatten = l := by
  intro n
  induction n with
  | zero =>
    intro l hl
    have hl0 : l = [] := List.length_eq_zero.mp (Nat.le_zero.mp hl)
    subst hl0
    rfl
  | succ n ih =>
    intro l hl
    rw [toBlocks_eq]
    by_cases h : l = []
    · subst h; simp
    · have hpos : 0 < l.length := List.length_pos.mpr h
      simp only [h, if_false, List.flatten_cons]
      rw [ih (l.drop 16) (by simp only [List.length_drop]; omega)]
      exact List.take_append_drop 16 l

theorem join_toBlocks (l : List Nat) : (toBlocks l).flatten = l :=
  join_toBlocks_aux l.length l (Nat.le_refl _)

theorem toBlocks_all16_aux : ∀ (n : Nat) (l : List Nat), l.length ≤ n →
    l.length % 16 = 0 → ∀ b ∈ toBlocks l, b.length = 16 := by
  intro n
  induction n with
  | zero =>
    intro l hl _
    have hl0 : l = [] := List.length_eq_zero.mp (Nat.le_zero.mp hl)
    subst hl0
    simp [toBlocks, toBlocksAux]
  | succ n ih =>
    intro l hl hmod
    rw [toBlocks_eq]
    by_cases h : l = []
    · subst h; simp
    · have hpos : 0 < l.length := List.length_pos.mpr h
      have h16 : 16 ≤ l.length := by omega
      intro b hb
      simp only [h, if_false, List.mem_cons] at hb
      rcases hb with hb | hb
      · subst hb
        simp only [List.length_take]
        omega
      · exact ih (l.drop 16) (by simp only [List.length_drop]; omega)
          (by simp only [List.length_drop]; omega) b hb

theorem toBlocks_all16 (l : List Nat) (h : l.length % 16 = 0) :
    ∀ b ∈ toBlocks l, b.length = 16 :=
  toBlocks_all16_aux l.length l (Nat.le_refl _) h

theorem toBlocks_append16 (b rest : List Nat) (hb : b.length = 16) :
    toBlocks (b ++ rest) = b :: toBlocks rest := by
  rw [toBlocks_eq]
  have hne : b ++ rest ≠ [] := by
    intro h
    have := congrArg List.length h
    simp [hb] at this
  have h1 : (b ++ rest).take 16 = b := by rw [← hb]; exact List.take_left b rest
  have h2 : (b ++ rest).drop 16 = rest := by rw [← hb]; exact List.drop_left b rest
  simp only [hne, if_false, h1, h2]

theorem toBlocks_join16 (bs : List (List Nat)) (h : ∀ b ∈ bs, b.length = 16) :
    toBlocks bs.flatten = bs := by
  induction bs with
  | nil => rfl
  | cons b t ih =>
    rw [List.flatten_cons, toBlocks_append16 b t.flatten (h b (List.mem_cons_self b t))]
    rw [ih (fun x hx => h x (List.mem_cons_of_mem b hx))]

theorem length_xorB (a b : List Nat) : (xorB a b).length = min a.length b.length :=
  List.length_zipWith ..

theorem xorB_xorB (a b : List Nat) (h : a.length = b.length) : xorB (xorB a b) b = a := by
  induction a generalizing b with
  | nil => cases b <;> rfl
  | cons x t ih =>
    cases b with
    | nil => simp at h
    | cons y s =>
      simp only [xorB, List.zipWith_cons_cons]
      have hh : Nat.xor (Nat.xor x y) y = x := Nat.xor_cancel_right y x
      have := ih s (by simpa using h)
      simp only [xorB] at this
      rw [hh, this]

theorem length_cbcEnc (E : List Nat → List Nat) (prev : List Nat) (bs : List (List Nat)) :
    (cbcEnc E prev bs).length = bs.length := by
  induction bs generalizing prev with
  | nil => rfl
  | cons b t ih => simp [cbcEnc, ih]

theorem cbcEnc_all16 (E : List Nat → List Nat)
    (hE : ∀ b, b.length = 16 → (E b).length = 16) :
    ∀ (bs : List (List Nat)) (prev : List Nat), (∀ b ∈ bs, b.length = 16) →
      prev.length = 16 → ∀ c ∈ cbcEnc E prev bs, c.length = 16 := by
  intro bs
  induction bs with
  | nil => intro prev _ _ c hc; simp [cbcEnc] at hc
  | cons b t ih =>
    intro prev hbs hprev c hc
    simp only [cbcEnc, List.mem_cons] at hc
    have hxb : (xorB b prev).length = 16 := by
      rw [length_xorB, hbs b (List.mem_cons_self b t), hprev]
      exact min_self 16
    rcases hc with hc | hc
    · subst hc; exact hE _ hxb
    · exact ih (E (xorB b prev)) (fun x hx => hbs x (List.mem_cons_of_mem b hx))
        (hE _ hxb) c hc

theorem join_all16_length (bs : List (List Nat)) (h : ∀ b ∈ bs, b.length = 16) :
    bs.flatten.length = 16 * bs.length := by
  induction bs with
  | nil => rfl
  | cons b t ih =>
    simp only [List.flatten_cons, List.length_append, List.length_cons]
    rw [h b (List.mem_cons_self b t), ih (fun x hx => h x (List.mem_cons_of_mem b hx))]
    ring

theorem cbcDec_cbcEnc (E D : List Nat → List Nat)
    (hE : ∀ b, b.length = 16 → (E b).length = 16)
    (hD : ∀ b, b.length = 16 → D (E b) = b) :
    ∀ (bs : List (List Nat)) (prev : List Nat), (∀ b ∈ bs, b.length = 16) →
      prev.length = 16 → cbcDec D prev (cbcEnc E prev bs) = bs := by
  intro bs
  induction bs with
  | nil => intro prev _ _; rfl
  | cons b t ih =>
    intro prev hbs hprev
    have hb : b.length = 16 := hbs b (List.mem_cons_self b t)
    have hxb : (xorB b prev).length = 16 := by
      rw [length_xorB, hb, hprev]
      exact min_self 16
    simp only [cbcEnc, cbcDec]
    congr 1
    · rw [hD _ hxb]
      exact xorB_xorB b prev (by rw [hb, hprev])
    · exact ih (E (xorB b prev)) (fun x hx => hbs x (List.mem_cons_of_mem b hx)) (hE _ hxb)

theorem length_encBody (mk : MK) (iv padRand data : List Nat)
    (hiv : iv.length = 16) (hpad : padRand.length = padSize data.length)
    (hE : ∀ b, b.length = 16 → (mk.encB b).length = 16) :
    (encBody mk iv padRand data).length = data.length + 1 + padSize data.length := by
  unfold encBody
  have hmod : (padSize data.length :: (data ++ padRand)).length % 16 = 0 := by
    simp only [List.length_cons, List.length_append, hpad, padSize]
    omega
  have hall := toBlocks_all16 _ hmod
  have hcb := cbcEnc_all16 mk.encB hE (toBlocks (padSize data.length :: (data ++ padRand)))
    iv hall hiv
  rw [join_all16_length _ hcb, length_cbcEnc]
  have := join_all16_length _ hall
  rw [join_toBlocks] at this
  simp only [List.length_cons, List.length_append, hpad] at this
  omega

theorem Decrypt_structure (mk : MK) (iv body hsh : List Nat)
    (hiv : iv.length = 16) (hh : hsh.length = 32) (hmod : body.length % 16 = 0) :
    Decrypt mk (iv ++ (body ++ hsh)) =
      if hsh ≠ mk.hash body then .badMac
      else
        match (cbcDec mk.decB iv (toBlocks body)).flatten with
        | [] => .panic'
        | p :: rest =>
          if rest.length < p then .panic' else .ok (rest.take (rest.length - p)) := by
  have hL : (iv ++ (body ++ hsh)).length = body.length + 48 := by
    simp only [List.length_append, hiv, hh]
    omega
  have h48 : ¬ ((iv ++ (body ++ hsh)).length < 48) := by rw [hL]; omega
  have ht : (iv ++ (body ++ hsh)).take 16 = iv := List.take_left' hiv
  have hd : (iv ++ (body ++ hsh)).drop 16 = body ++ hsh := List.drop_left' hiv
  have he : ((iv ++ (body ++ hsh)).drop 16).take ((iv ++ (body ++ hsh)).length - 48)
      = body := by
    rw [hd, hL]
    have h0 : body.length + 48 - 48 = body.length := by omega
    rw [h0]
    exact List.take_left body hsh
  have hm : (iv ++ (body ++ hsh)).drop ((iv ++ (body ++ hsh)).length - 32) = hsh := by
    rw [hL, ← List.append_assoc]
    exact List.drop_left' (by simp only [List.length_append, hiv]; omega)
  have hmod' : ((iv ++ (body ++ hsh)).length - 48) % 16 = 0 := by rw [hL]; simpa using hmod
  unfold Decrypt
  rw [if_neg h48, he, hm]
  by_cases hbad : hsh ≠ mk.hash body
  · rw [if_pos hbad, if_pos hbad]
  · rw [if_neg hbad, if_neg hbad, if_neg (by simpa using hmod'), ht]

/-- C1: for every master key and plaintext (over the CBC/HMAC primitives of
the master key, assumed only to be a block cipher with its inverse and a
32-byte hash), `Decrypt` of `Encrypt` returns the plaintext without error,
for all plaintext lengths (in particular 0..17) and all IV/random-tail
draws. -/
theorem c1_encrypt_decrypt_roundtrip (mk : MK) (iv padRand m : List Nat)
    (hiv : iv.length = 16) (hpad : padRand.length = padSize m.length)
    (hE : ∀ b, b.length = 16 → (mk.encB b).length = 16)
    (hD : ∀ b, b.length = 16 → mk.decB (mk.encB b) = b)
    (hH : ∀ l, (mk.hash l).length = 32) :
    Decrypt mk (Encrypt mk iv padRand m) = .ok m := by
  have hps : 1 ≤ padSize m.length ∧ padSize m.length ≤ 16 := by unfold padSize; omega
  have hpdlen : (padSize m.length :: (m ++ padRand)).length
      = m.length + 1 + padSize m.length := by
    simp only [List.length_cons, List.length_append, hpad]
    omega
  have hpmod : (padSize m.length :: (m ++ padRand)).length % 16 = 0 := by
    rw [hpdlen]
    unfold padSize
    omega
  have hblocks16 := toBlocks_all16 _ hpmod
  have hcbc16 := cbcEnc_all16 mk.encB hE _ iv hblocks16 hiv
  have hbodylen : (encBody mk iv padRand m).length = m.length + 1 + padSize m.length :=
    length_encBody mk iv padRand m hiv hpad hE
  have hbodymod : (encBody mk iv padRand m).length % 16 = 0 := by
    rw [hbodylen, ← hpdlen]
    exact hpmod
  have hEnc : Encrypt mk iv padRand m
      = iv ++ (encBody mk iv padRand m ++ mk.hash (encBody mk iv padRand m)) := by
    simp only [Encrypt]
    rw [List.append_assoc]
  rw [hEnc, Decrypt_structure mk iv _ _ hiv (hH _) hbodymod]
  rw [if_neg (by simp)]
  rw [show encBody mk iv padRand m
      = (cbcEnc mk.encB iv (toBlocks (padSize m.length :: (m ++ padRand)))).flatten from rfl]
  rw [toBlocks_join16 _ hcbc16,
    cbcDec_cbcEnc mk.encB mk.decB hE hD _ iv hblocks16 hiv, join_toBlocks]
  have hrest : (m ++ padRand).length = m.length + padSize m.length := by
    simp [hpad]
  simp only []
  rw [if_neg (by rw [hrest]; omega)]
  have harith : (m ++ padRand).length - padSize m.length = m.length := by
    rw [hrest]; omega
  rw [harith, List.take_left m padRand]

/-- C1 witness: the round trip evaluated at a concrete master key, IV,
random tail and 3-byte plaintext. -/
theorem c1_encrypt_decrypt_roundtrip_witness :
    (List.replicate 16 0).length = 16 ∧
    (List.replicate 12 7).length = padSize ([1, 2, 3] : List Nat).length ∧
    Decrypt idMK (Encrypt idMK (List.replicate 16 0) (List.replicate 12 7) [1, 2, 3])
      = .ok [1, 2, 3] :=
  ⟨by decide, by decide,
    c1_encrypt_decrypt_roundtrip idMK (List.replicate 16 0) (List.replicate 12 7) [1, 2, 3]
      (by decide) (by decide) (fun b hb => hb) (fun b _ => rfl) (fun l => rfl)⟩

/-- C3: `Decrypt` on any input shorter than IV + one AES block + HMAC
panics (Go out-of-range slicing) — it does not return a short-ciphertext
error, because no length check exists in the code. -/
theorem c3_short_input_panics (mk : MK) (data : List Nat) (h : data.length < 48) :
    Decrypt mk data = .panic' := by
  unfold Decrypt
  rw [if_pos h]

/-- C3 witness: the empty input makes `Decrypt` panic. -/
theorem c3_short_input_panics_witness :
    ([] : List Nat).length < 48 ∧ Decrypt idMK [] = .panic' :=
  ⟨by decide, c3_short_input_panics idMK [] (by decide)⟩

/-- C4: `NewEncryptedKey` always returns exactly `EncryptedKeySize = 96`
bytes: the 16-byte IV, 48 bytes of CBC ciphertext (32-byte key, one
pad-size byte and a 15-byte random tail), and the 32-byte HMAC. -/
theorem c4_new_encrypted_key_size (mk : MK) (key iv padRand : List Nat)
    (hkey : key.length = 32) (hiv : iv.length = 16) (hpad : padRand.length = 15)
    (hE : ∀ b, b.length = 16 → (mk.encB b).length = 16)
    (hH : ∀ l, (mk.hash l).length = 32) :
    (NewEncryptedKey mk key iv padRand).length = EncryptedKeySize ∧
    NewEncryptedKey mk key iv padRand
      = iv ++ encBody mk iv padRand key ++ mk.hash (encBody mk iv padRand key) ∧
    (encBody mk iv padRand key).length = 48 ∧
    (mk.hash (encBody mk iv padRand key)).length = 32 := by
  have hps : padSize key.length = 15 := by rw [hkey]; decide
  have hbl : (encBody mk iv padRand key).length = 48 := by
    rw [length_encBody mk iv padRand key hiv (by rw [hpad, hps]) hE, hkey]
    decide
  refine ⟨?_, rfl, hbl, hH _⟩
  show (iv ++ encBody mk iv padRand key ++ mk.hash (encBody mk iv padRand key)).length
    = EncryptedKeySize
  simp only [List.length_append, hiv, hbl, hH]
  rfl

/-- C4 witness: the encrypted-key size evaluated at a concrete master key,
fresh key, IV and random tail. -/
theorem c4_new_encrypted_key_size_witness :
    (List.replicate 32 1).length = 32 ∧
    (NewEncryptedKey idMK (List.replicate 32 1) (List.replicate 16 0)
      (List.replicate 15 2)).length = EncryptedKeySize :=
  ⟨by decide,
    (c4_new_encrypted_key_size idMK (List.replicate 32 1) (List.replicate 16 0)
      (List.replicate 15 2) (by decide) (by decide) (by decide)
      (fun b hb => hb) (fun l => rfl)).1⟩

theorem natXor_ne_self (x y : Nat) (hy : y ≠ 0) : Nat.xor x y ≠ x := by
  intro h
  apply hy
  have h2 : Nat.xor x (Nat.xor x y) = y := Nat.xor_cancel_left x y
  have h3 : Nat.xor x x = 0 := Nat.xor_self x
  rw [h, h3] at h2
  exact h2.symm

/-- C2 counterexample: flipping bit 0 of an encrypted record — a bit inside
the 16-byte IV prefix, which the HMAC does not cover — makes `Decrypt`
succeed and return (wrong) plaintext bytes instead of failing with the
bad-MAC error. -/
theorem c2_iv_flip_counterexample :
    Decrypt idMK (flipBit (Encrypt idMK (List.replicate 16 0) (List.replicate 15 0) []) 0)
        = .ok [0] ∧
    Decrypt idMK (flipBit (Encrypt idMK (List.replicate 16 0) (List.replicate 15 0) []) 0)
        ≠ .badMac := by
  constructor
  · decide
  · decide

theorem set_ne_of_getElem_ne (l : List Nat) (i : Nat) (v : Nat) (hi : i < l.length)
    (hv : v ≠ l[i]) : l.set i v ≠ l := by
  intro h
  apply hv
  have h1 : (l.set i v)[i]? = some v := List.getElem?_set_self hi
  have h2 : (l.set i v)[i]? = l[i]? := congrArg (fun t => t[i]?) h
  rw [h1, List.getElem?_eq_getElem hi] at h2
  exact Option.some.inj h2

/-- C2 amended: flipping any bit at a position outside the 16-byte IV prefix
(bit position `p ≥ 128`) of an encrypted record makes `Decrypt` fail with
the bad-MAC error and return no plaintext bytes — for flips inside the CBC
ciphertext under the assumption that the HMAC distinguishes the modified
ciphertext from the original. -/
theorem c2_flip_outside_iv_badmac (mk : MK) (iv padRand m : List Nat) (p : Nat)
    (hiv : iv.length = 16) (hpad : padRand.length = padSize m.length)
    (hE : ∀ b, b.length = 16 → (mk.encB b).length = 16)
    (hH : ∀ l, (mk.hash l).length = 32)
    (hp : 128 ≤ p)
    (hpL : p < 8 * (Encrypt mk iv padRand m).length)
    (hcol : p / 8 < 16 + (encBody mk iv padRand m).length →
      mk.hash (flipBit (encBody mk iv padRand m) (p - 128))
        ≠ mk.hash (encBody mk iv padRand m)) :
    Decrypt mk (flipBit (Encrypt mk iv padRand m) p) = .badMac := by
  have hbodylen := length_encBody mk iv padRand m hiv hpad hE
  have hbodymod : (encBody mk iv padRand m).length % 16 = 0 := by
    rw [hbodylen]
    unfold padSize
    omega
  have hhl : (mk.hash (encBody mk iv padRand m)).length = 32 := hH _
  have hEnc : Encrypt mk iv padRand m
      = iv ++ (encBody mk iv padRand m ++ mk.hash (encBody mk iv padRand m)) := by
    simp only [Encrypt]
    rw [List.append_assoc]
  have hLen : (Encrypt mk iv padRand m).length
      = 48 + (encBody mk iv padRand m).length := by
    rw [hEnc]
    simp only [List.length_append, hiv, hhl]
    omega
  have hi16 : 16 ≤ p / 8 := by omega
  have hiL : p / 8 < 48 + (encBody mk iv padRand m).length := by
    rw [hLen] at hpL
    omega
  rw [hEnc]
  unfold flipBit
  have hset : (iv ++ (encBody mk iv padRand m ++ mk.hash (encBody mk iv padRand m))).set
        (p / 8)
        ((iv ++ (encBody mk iv padRand m ++ mk.hash (encBody mk iv padRand m))).getD
          (p / 8) 0 ^^^ 1 <<< (p % 8))
      = iv ++ ((encBody mk iv padRand m ++ mk.hash (encBody mk iv padRand m)).set
        (p / 8 - 16)
        ((encBody mk iv padRand m ++ mk.hash (encBody mk iv padRand m)).getD
          (p / 8 - 16) 0 ^^^ 1 <<< (p % 8))) := by
    have hgd : (iv ++ (encBody mk iv padRand m ++ mk.hash (encBody mk iv padRand m))).getD
        (p / 8) 0
        = (encBody mk iv padRand m ++ mk.hash (encBody mk iv padRand m)).getD
          (p / 8 - 16) 0 := by
      simp only [List.getD_eq_getElem?_getD]
      rw [List.getElem?_append_right (by rw [hiv]; exact hi16), hiv]
    rw [hgd, List.set_append_right _ _ (by rw [hiv]; exact hi16), hiv]
  rw [hset]
  by_cases hcase : p / 8 - 16 < (encBody mk iv padRand m).length
  · -- the flipped bit is inside the CBC ciphertext
    have hgdA : (encBody mk iv padRand m ++ mk.hash (encBody mk iv padRand m)).getD
        (p / 8 - 16) 0 = (encBody mk iv padRand m).getD (p / 8 - 16) 0 := by
      simp only [List.getD_eq_getElem?_getD]
      rw [List.getElem?_append_left hcase]
    rw [hgdA, List.set_append_left _ _ hcase,
      Decrypt_structure mk iv _ _ hiv hhl (by rw [List.length_set]; exact hbodymod)]
    rw [if_pos]
    have hflip : flipBit (encBody mk iv padRand m) (p - 128)
        = (encBody mk iv padRand m).set (p / 8 - 16)
          ((encBody mk iv padRand m).getD (p / 8 - 16) 0 ^^^ 1 <<< (p % 8)) := by
      unfold flipBit
      have h1 : (p - 128) / 8 = p / 8 - 16 := by omega
      have h2 : (p - 128) % 8 = p % 8 := by omega
      rw [h1, h2]
    rw [← hflip]
    exact (hcol (by omega)).symm
  · -- the flipped bit is inside the stored HMAC
    have hble : (encBody mk iv padRand m).length ≤ p / 8 - 16 := by omega
    have hgdB : (encBody mk iv padRand m ++ mk.hash (encBody mk iv padRand m)).getD
        (p / 8 - 16) 0
        = (mk.hash (encBody mk iv padRand m)).getD
          (p / 8 - 16 - (encBody mk iv padRand m).length) 0 := by
      simp only [List.getD_eq_getElem?_getD]
      rw [List.getElem?_append_right hble]
    have hj : p / 8 - 16 - (encBody mk iv padRand m).length
        < (mk.hash (encBody mk iv padRand m)).length := by
      rw [hhl]
      omega
    rw [hgdB, List.set_append_right _ _ hble,
      Decrypt_structure mk iv _ _ hiv (by rw [List.length_set]; exact hhl) hbodymod]
    rw [if_pos]
    apply set_ne_of_getElem_ne _ _ _ hj
    rw [List.getD_eq_getElem?_getD, List.getElem?_eq_getElem hj]
    apply natXor_ne_self
    rw [Nat.one_shiftLeft]
    exact Nat.pos_iff_ne_zero.mp (Nat.two_pow_pos _)

/-- C2 amended witness: a concrete flip of bit 300 — inside the stored
HMAC — of a concrete encrypted record fails with the bad-MAC error. -/
theorem c2_flip_outside_iv_badmac_witness :
    128 ≤ 300 ∧
    300 < 8 * (Encrypt idMK (List.replicate 16 0) (List.replicate 15 0) []).length ∧
    Decrypt idMK (flipBit (Encrypt idMK (List.replicate 16 0) (List.replicate 15 0) []) 300)
      = .badMac :=
  ⟨by decide, by decide,
    c2_flip_outside_iv_badmac idMK (List.replicate 16 0) (List.replicate 15 0) [] 300
      (by decide) (by decide) (fun b hb => hb) (fun l => rfl) (by decide) (by decide)
      (fun h => absurd h (by decide))⟩

theorem getU32le_putU32le (n : Nat) (hn : n < 4294967296) :
    getU32le (putU32le n) = n := by
  simp only [putU32le, getU32le, List.getD_cons_zero, List.getD_cons_succ]
  omega

theorem Read_parse (w : WrapPrims) (pass salt nonce sealed : List Nat) (n : Nat)
    (hsalt : salt.length = 16) (hnonce : nonce.length = 12) (hn : n < 4294967296) :
    Read w pass (1 :: (salt ++ putU32le n ++ (nonce ++ sealed)))
      = match w.gcmOpen (w.kdf pass salt n) nonce sealed with
        | some key => .ok key
        | none => .err := by
  have hput : (putU32le n).length = 4 := rfl
  have hassoc : salt ++ putU32le n ++ (nonce ++ sealed)
      = salt ++ (putU32le n ++ (nonce ++ sealed)) := List.append_assoc ..
  have hblen : (salt ++ putU32le n ++ (nonce ++ sealed)).length = 32 + sealed.length := by
    simp only [List.length_append, hsalt, hnonce, hput]
    omega
  have htake16 : (salt ++ putU32le n ++ (nonce ++ sealed)).take 16 = salt := by
    rw [hassoc]
    exact List.take_left' hsalt
  have hdrop16 : (salt ++ putU32le n ++ (nonce ++ sealed)).drop 16
      = putU32le n ++ (nonce ++ sealed) := by
    rw [hassoc]
    exact List.drop_left' hsalt
  have htake4 : (putU32le n ++ (nonce ++ sealed)).take 4 = putU32le n :=
    List.take_left' hput
  have hdrop4 : (putU32le n ++ (nonce ++ sealed)).drop 4 = nonce ++ sealed :=
    List.drop_left' hput
  have htake12 : (nonce ++ sealed).take 12 = nonce := List.take_left' hnonce
  have hdrop12 : (nonce ++ sealed).drop 12 = sealed := List.drop_left' hnonce
  simp only [Read]
  rw [if_neg (by simp), if_neg (by rw [hblen]; omega), htake16, hdrop16,
    if_neg (by simp only [List.length_append, hnonce, hput]; omega), htake4, hdrop4,
    if_neg (by simp only [List.length_append, hnonce]; omega), htake12, hdrop12,
    getU32le_putU32le n hn]

/-- C5: `Read(p₁, Save(p₀, k))` returns `k` when `p₁ = p₀` and fails for
every other passphrase, over the PBKDF2/AES-GCM primitives, assumed only to
round-trip under the same derived key, to reject a different derived key,
and to derive different keys from different passphrases. -/
theorem c5_passphrase_binding (w : WrapPrims) (pass0 pass1 k salt nonce : List Nat)
    (hsalt : salt.length = 16) (hnonce : nonce.length = 12)
    (hround : w.gcmOpen (w.kdf pass0 salt (numIterFor pass0)) nonce
        (w.gcmSeal (w.kdf pass0 salt (numIterFor pass0)) nonce k) = some k)
    (hauth : w.kdf pass1 salt (numIterFor pass0) ≠ w.kdf pass0 salt (numIterFor pass0) →
      w.gcmOpen (w.kdf pass1 salt (numIterFor pass0)) nonce
        (w.gcmSeal (w.kdf pass0 salt (numIterFor pass0)) nonce k) = none)
    (hinj : pass1 ≠ pass0 →
      w.kdf pass1 salt (numIterFor pass0) ≠ w.kdf pass0 salt (numIterFor pass0)) :
    (pass1 = pass0 → Read w pass1 (Save w pass0 salt nonce k) = .ok k) ∧
    (pass1 ≠ pass0 → Read w pass1 (Save w pass0 salt nonce k) = .err) := by
  have hiter : numIterFor pass0 < 4294967296 := by
    unfold numIterFor
    split <;> omega
  have hSave : Save w pass0 salt nonce k
      = 1 :: (salt ++ putU32le (numIterFor pass0)
          ++ (nonce ++ w.gcmSeal (w.kdf pass0 salt (numIterFor pass0)) nonce k)) := rfl
  constructor
  · intro heq
    subst heq
    rw [hSave, Read_parse w pass1 salt nonce _ _ hsalt hnonce hiter, hround]
  · intro hne
    rw [hSave, Read_parse w pass1 salt nonce _ _ hsalt hnonce hiter, hauth (hinj hne)]

/-- C5 witness: save under passphrase "foo" and read back with "foo" and
with "bar", over concrete primitives. -/
theorem c5_passphrase_binding_witness :
    Read idWrap [102, 111, 111]
      (Save idWrap [102, 111, 111] (List.replicate 16 0) (List.replicate 12 0) [1, 2, 3])
      = .ok [1, 2, 3] ∧
    Read idWrap [98, 97, 114]
      (Save idWrap [102, 111, 111] (List.replicate 16 0) (List.replicate 12 0) [1, 2, 3])
      = .err :=
  ⟨(c5_passphrase_binding idWrap [102, 111, 111] [102, 111, 111] [1, 2, 3]
      (List.replicate 16 0) (List.replicate 12 0)
      (by decide) (by decide) (by decide) (fun h => absurd rfl h) (fun h => absurd rfl h)).1 rfl,
   (c5_passphrase_binding idWrap [102, 111, 111] [98, 97, 114] [1, 2, 3]
      (List.replicate 16 0) (List.replicate 12 0)
      (by decide) (by decide) (by decide) (fun _ => by decide) (fun _ => by decide)).2
      (by decide)⟩

/-- C10: `masterkey.Read` aborts the process via `log.Fatalf` whenever the
key file's first (version) byte differs from 1, instead of returning an
error value; consequently it returns a key only when the first byte is 1. -/
theorem c10_version_byte_fatal (w : WrapPrims) (pass : List Nat) :
    (∀ (v : Nat) (b : List Nat), v ≠ 1 → Read w pass (v :: b) = .fatal) ∧
    (∀ (file k : List Nat), Read w pass file = .ok k → file.head? = some 1) := by
  constructor
  · intro v b hv
    simp only [Read]
    rw [if_pos hv]
  · intro file k h
    match file with
    | [] => simp [Read] at h
    | v :: b =>
      by_cases hv : v ≠ 1
      · simp only [Read, if_pos hv] at h
        exact ReadResult.noConfusion h
      · push_neg at hv
        subst hv
        rfl

/-- C10 witness: a file whose version byte is 2 makes `Read` abort. -/
theorem c10_version_byte_fatal_witness :
    (2 : Nat) ≠ 1 ∧ Read idWrap [] [2] = .fatal :=
  ⟨by decide, (c10_version_byte_fatal idWrap []).1 2 [] (by decide)⟩

end Masterkey

namespace Database

theorem pickUid_ok (draws uids : List Int) (uid : Int)
    (h : pickUid uids draws = some uid) :
    uid ∉ uids ∧ ∃ d ∈ draws, uid = d + 1000000 := by
  induction draws with
  | nil => simp [pickUid] at h
  | cons d rest ih =>
    simp only [pickUid] at h
    by_cases hmem : d + 1000000 ∈ uids
    · rw [if_pos hmem] at h
      obtain ⟨h1, dd, hdd, h2⟩ := ih h
      exact ⟨h1, dd, List.mem_cons_of_mem d hdd, h2⟩
    · rw [if_neg hmem] at h
      cases h
      exact ⟨hmem, d, List.mem_cons_self d rest, rfl⟩

/-- C6: every user ID assigned by `AddUser` is at least 1 000 000, fits in a
signed 32-bit integer, and differs from every ID already in the user list;
the new entry is appended to the very list the rejection sampling inspected
(the `users.dat` record held open for update), and a duplicate email makes
`AddUser` fail with `os.ErrExist`. -/
theorem c6_adduser_fresh_id (ul : List UserListEntry) (email : String) (draws : List Int)
    (hdraws : ∀ d ∈ draws, 0 ≤ d ∧ d < maxInt32 - 1000000) :
    (∀ (newList : List UserListEntry) (uid : Int),
      AddUser ul email draws = .ok newList uid →
      1000000 ≤ uid ∧ uid < 2147483648 ∧
      uid ∉ ul.map (fun e => e.userID) ∧ newList = ul ++ [⟨uid, email⟩]) ∧
    ((∃ e ∈ ul, e.email = email) → AddUser ul email draws = .alreadyExists) := by
  constructor
  · intro newList uid h
    unfold AddUser at h
    by_cases hany : ul.any (fun e => e.email = email)
    · rw [if_pos hany] at h
      exact AddUserResult.noConfusion h
    · rw [if_neg hany] at h
      cases hpick : pickUid (ul.map (fun e => e.userID)) draws with
      | none => rw [hpick] at h; exact AddUserResult.noConfusion h
      | some u =>
        rw [hpick] at h
        obtain ⟨hnotmem, d, hd, hu⟩ := pickUid_ok draws _ u hpick
        obtain ⟨hd0, hdM⟩ := hdraws d hd
        cases h
        refine ⟨by omega, by unfold maxInt32 at hdM; omega, hnotmem, rfl⟩
  · intro ⟨e, he, hemail⟩
    unfold AddUser
    rw [if_pos (List.any_eq_true.mpr ⟨e, he, by simp [hemail]⟩)]

/-- C6 witness: a concrete list where the first random draw collides and
the second is accepted. -/
theorem c6_adduser_fresh_id_witness :
    (∀ d ∈ ([1, 5] : List Int), 0 ≤ d ∧ d < maxInt32 - 1000000) ∧
    (1000000 ≤ (1000005 : Int) ∧ (1000005 : Int) < 2147483648 ∧
      (1000005 : Int) ∉ ([⟨1000001, "a"⟩] : List UserListEntry).map (fun e => e.userID) ∧
      ([⟨1000001, "a"⟩, ⟨1000005, "b"⟩] : List UserListEntry)
        = [⟨1000001, "a"⟩] ++ [⟨1000005, "b"⟩]) :=
  ⟨by decide,
    (c6_adduser_fresh_id [⟨1000001, "a"⟩] "b" [1, 5] (by decide)).1
      [⟨1000001, "a"⟩, ⟨1000005, "b"⟩] 1000005 (by decide)⟩

theorem stPair_symmetric : symmetric stPair := by
  intro a b
  unfold stPair
  by_cases ha1 : a = 1 <;> by_cases ha2 : a = 2 <;>
    by_cases hb1 : b = 1 <;> by_cases hb2 : b = 2 <;>
    (simp_all; all_goals omega)

/-- C7: the contact-symmetry invariant is broken by `removeAllContacts`:
starting from the symmetric state where user 1 has user 2 as a contact
(and user 2's `in` set records user 1), after `removeAllContacts` for
user 1, user 1's contact list still contains user 2 while user 2's `in`
set no longer records user 1.  The loop body deletes `uc[uid].Contacts[uid]`
(the peer's self-entry) where its own comment says it removes the contact
from the user's list. -/
theorem c7_remove_all_contacts_breaks_symmetry :
    symmetric stPair ∧
    (∃ e ∈ ((removeAllContacts stPair 1 5 [1, 2]) 1).contacts, e.1 = 2) ∧
    (1 : Int) ∉ ((removeAllContacts stPair 1 5 [1, 2]) 2).inSet ∧
    ¬ symmetric (removeAllContacts stPair 1 5 [1, 2]) := by
  refine ⟨stPair_symmetric, by decide, by decide, ?_⟩
  intro hsym
  have h1 : (∃ e ∈ ((removeAllContacts stPair 1 5 [1, 2]) 1).contacts, e.1 = 2) := by decide
  have h2 := (hsym 1 2).mp h1
  exact absurd h2 (by decide)

theorem rmStep_other (u now : Int) (st : St) (uid v : Int) (hvu : v ≠ u) (hvid : v ≠ uid) :
    (rmStep u now st uid) v = st v := by
  simp [rmStep, upd, hvu, hvid]

theorem foldl_rmStep_other (u now : Int) (l : List Int) (st : St) (v : Int)
    (hvu : v ≠ u) (hvl : v ∉ l) :
    (l.foldl (rmStep u now) st) v = st v := by
  induction l generalizing st with
  | nil => rfl
  | cons x rest ih =>
    simp only [List.foldl_cons]
    rw [ih _ (fun h => hvl (List.mem_cons_of_mem x h))]
    exact rmStep_other u now st x v hvu (fun h => hvl (h ▸ List.mem_cons_self x rest))

theorem rmStep_self (u now : Int) (st : St) (P : Int) (h : P ≠ u) :
    (rmStep u now st P) P
      = ⟨mapDel (mapDel (st P).contacts u) P, setDel (st P).inSet u,
         (st P).deletes ++ [⟨u, now, deleteEventContact⟩]⟩ := by
  simp [rmStep, upd, h]

theorem rmStep_deletes_u (u now : Int) (st : St) (uid : Int) :
    ((rmStep u now st uid) u).deletes
      = (st u).deletes ++
        (if uid = u then
          [⟨u, now, deleteEventContact⟩, ⟨uid, now, deleteEventContact⟩]
         else [⟨uid, now, deleteEventContact⟩] : List DeleteEvent) := by
  by_cases h : uid = u
  · subst h
    simp [rmStep, upd]
  · have h2 : ¬ (u = uid) := fun hh => h hh.symm
    simp [rmStep, upd, h, h2]

theorem foldl_rmStep_deletes_u (u now : Int) (l : List Int) (st : St) :
    ∃ suf : List DeleteEvent,
      ((l.foldl (rmStep u now) st) u).deletes = (st u).deletes ++ suf ∧
      ∀ x ∈ l, (⟨x, now, deleteEventContact⟩ : DeleteEvent) ∈ suf := by
  induction l generalizing st with
  | nil => exact ⟨[], by simp, by simp⟩
  | cons x rest ih =>
    obtain ⟨suf, hsuf, hmem⟩ := ih (rmStep u now st x)
    refine ⟨(if x = u then
        [⟨u, now, deleteEventContact⟩, ⟨x, now, deleteEventContact⟩]
       else [⟨x, now, deleteEventContact⟩] : List DeleteEvent) ++ suf, ?_, ?_⟩
    · simp only [List.foldl_cons]
      rw [hsuf, rmStep_deletes_u, List.append_assoc]
    · intro y hy
      rcases List.mem_cons.mp hy with hy | hy
      · subst hy
        apply List.mem_append_left
        by_cases hxu : y = u
        · subst hxu; simp
        · simp [hxu]
      · exact List.mem_append_right _ (hmem y hy)

theorem mem_mapDel (m : List (Int × Contact)) (k : Int) (e : Int × Contact)
    (h : e ∈ mapDel m k) : e ∈ m ∧ e.1 ≠ k := by
  unfold mapDel at h
  have := List.mem_filter.mp h
  exact ⟨this.1, by simpa using this.2⟩

theorem not_mem_setDel (s : List Int) (k : Int) : k ∉ setDel s k := by
  unfold setDel
  intro h
  have := List.mem_filter.mp h
  simp at this

/-- C8: after `removeAllContacts` for user `u` commits, every peer `P`'s
contact list no longer contains `u` in its `Contacts` map or its `In` set,
`P`'s delete-event log has gained exactly one contact event naming `u`, and
`u`'s own delete-event log has gained contact events including one naming
`P`; all in the single `OpenManyForUpdate` transaction over the lists named
by `uidsOf`, for any Go map iteration order. -/
theorem c8_remove_all_contacts_effect (st : St) (u now : Int) (order : List Int) (P : Int)
    (hord : order.Nodup)
    (henum : ∀ x, x ∈ order ↔ x ∈ uidsOf st u)
    (hP : P ∈ uidsOf st u) (hPu : P ≠ u) :
    (∀ e ∈ ((removeAllContacts st u now order) P).contacts, e.1 ≠ u) ∧
    u ∉ ((removeAllContacts st u now order) P).inSet ∧
    ((removeAllContacts st u now order) P).deletes
      = (st P).deletes ++ [⟨u, now, deleteEventContact⟩] ∧
    (∃ suf, ((removeAllContacts st u now order) u).deletes = (st u).deletes ++ suf ∧
      (⟨P, now, deleteEventContact⟩ : DeleteEvent) ∈ suf) := by
  have hPord : P ∈ order := (henum P).mpr hP
  obtain ⟨l₁, l₂, rfl⟩ := List.append_of_mem hPord
  have hnd := List.nodup_append.mp hord
  have hPl₁ : P ∉ l₁ := fun h => hnd.2.2 h (List.mem_cons_self P l₂)
  have hPl₂ : P ∉ l₂ := (List.nodup_cons.mp hnd.2.1).1
  have hsplit : removeAllContacts st u now (l₁ ++ P :: l₂)
      = l₂.foldl (rmStep u now) (rmStep u now (l₁.foldl (rmStep u now) st) P) := by
    unfold removeAllContacts
    rw [List.foldl_append, List.foldl_cons]
  have hmid : (l₁.foldl (rmStep u now) st) P = st P :=
    foldl_rmStep_other u now l₁ st P hPu hPl₁
  have hPfinal : (removeAllContacts st u now (l₁ ++ P :: l₂)) P
      = ⟨mapDel (mapDel (st P).contacts u) P, setDel (st P).inSet u,
         (st P).deletes ++ [⟨u, now, deleteEventContact⟩]⟩ := by
    rw [hsplit, foldl_rmStep_other u now l₂ _ P hPu hPl₂, rmStep_self u now _ P hPu, hmid]
  refine ⟨?_, ?_, ?_, ?_⟩
  · intro e he
    rw [hPfinal] at he
    exact (mem_mapDel _ u e (mem_mapDel _ P e he).1).2
  · rw [hPfinal]
    exact not_mem_setDel _ u
  · rw [hPfinal]
  · obtain ⟨suf, hsuf, hmem⟩ := foldl_rmStep_deletes_u u now (l₁ ++ P :: l₂) st
    exact ⟨suf, hsuf, hmem P hPord⟩

/-- C8 witness: the effect evaluated for user 1's only peer, user 2, in the
two-user state. -/
theorem c8_remove_all_contacts_effect_witness :
    ([1, 2] : List Int).Nodup ∧ (2 : Int) ≠ 1 ∧
    ((∀ e ∈ ((removeAllContacts stPair 1 5 [1, 2]) 2).contacts, e.1 ≠ 1) ∧
     (1 : Int) ∉ ((removeAllContacts stPair 1 5 [1, 2]) 2).inSet ∧
     ((removeAllContacts stPair 1 5 [1, 2]) 2).deletes
       = (stPair 2).deletes ++ [⟨1, 5, deleteEventContact⟩] ∧
     (∃ suf, ((removeAllContacts stPair 1 5 [1, 2]) 1).deletes
         = (stPair 1).deletes ++ suf ∧
       (⟨2, 5, deleteEventContact⟩ : DeleteEvent) ∈ suf)) :=
  ⟨by decide, by decide,
    c8_remove_all_contacts_effect stPair 1 5 [1, 2] 2 (by decide)
      (by
        have h : uidsOf stPair 1 = [1, 2] := by decide
        intro x
        rw [h])
      (by decide) (by decide)⟩

theorem lexLe_trans (a b c : Contact) (h1 : lexLe a b = true) (h2 : lexLe b c = true) :
    lexLe a c = true := by
  unfold lexLe at h1 h2 ⊢
  by_cases e1 : a.dateModified = b.dateModified
  · rw [if_pos e1] at h1
    by_cases e2 : b.dateModified = c.dateModified
    · rw [if_pos e2] at h2
      rw [if_pos (e1.trans e2)]
      exact decide_eq_true (le_trans (of_decide_eq_true h1) (of_decide_eq_true h2))
    · rw [if_neg e2] at h2
      have hbc := of_decide_eq_true h2
      have hne : ¬ a.dateModified = c.dateModified := by omega
      rw [if_neg hne]
      exact decide_eq_true (by omega)
  · rw [if_neg e1] at h1
    have hab := of_decide_eq_true h1
    by_cases e2 : b.dateModified = c.dateModified
    · have hne : ¬ a.dateModified = c.dateModified := by omega
      rw [if_neg hne]
      exact decide_eq_true (by omega)
    · rw [if_neg e2] at h2
      have hbc := of_decide_eq_true h2
      have hne : ¬ a.dateModified = c.dateModified := by omega
      rw [if_neg hne]
      exact decide_eq_true (by omega)

theorem lexLe_total (a b : Contact) : lexLe a b || lexLe b a := by
  unfold lexLe
  by_cases e : a.dateModified = b.dateModified
  · simp [e, le_total]
  · have e' : ¬ b.dateModified = a.dateModified := fun h => e h.symm
    simp only [if_neg e, if_neg e', Bool.or_eq_true, decide_eq_true_eq]
    omega

theorem lexLt_irrefl (a : Contact) : ¬ lexLt a a := by
  unfold lexLt
  simp

theorem lexLt_asymm (a b : Contact) (h1 : lexLt a b) (h2 : lexLt b a) : False := by
  unfold lexLt at h1 h2
  rcases h1 with h1 | ⟨h1e, h1s⟩ <;> rcases h2 with h2 | ⟨h2e, h2s⟩
  · omega
  · omega
  · omega
  · exact absurd h2s (not_lt_of_lt h1s)

theorem sublist_of_sorted_subset :
    ∀ (t s : List Contact), s.Pairwise lexLt → t.Pairwise lexLt →
      (∀ x ∈ s, x ∈ t) → List.Sublist s t := by
  intro t
  induction t with
  | nil =>
    intro s _ _ hsub
    cases s with
    | nil => exact List.nil_sublist []
    | cons a s' => exact absurd (hsub a (List.mem_cons_self a s')) (List.not_mem_nil a)
  | cons b t' ih =>
    intro s hs ht hsub
    cases s with
    | nil => exact List.nil_sublist _
    | cons a s' =>
      have hsc := List.pairwise_cons.mp hs
      have htc := List.pairwise_cons.mp ht
      by_cases hab : a = b
      · subst hab
        apply List.Sublist.cons₂
        apply ih s' hsc.2 htc.2
        intro x hx
        rcases List.mem_cons.mp (hsub x (List.mem_cons_of_mem a hx)) with h | h
        · exact absurd (h ▸ hsc.1 x hx) (lexLt_irrefl a)
        · exact h
      · have hat' : a ∈ t' := by
          rcases List.mem_cons.mp (hsub a (List.mem_cons_self a s')) with h | h
          · exact absurd h hab
          · exact h
        apply List.Sublist.cons
        apply ih (a :: s') hs htc.2
        intro x hx
        rcases List.mem_cons.mp hx with hxa | hxs'
        · exact hxa ▸ hat'
        · rcases List.mem_cons.mp (hsub x (List.mem_cons_of_mem a hxs')) with hxb | hxt'
          · exact absurd (htc.1 a hat') (fun hba => lexLt_asymm a b (hxb ▸ hsc.1 x hxs') hba)
          · exact hxt'

theorem contactUpdates_email_nodup (l : List Contact) (ts : Int)
    (hem : (l.map Contact.email).Nodup) :
    ((ContactUpdates l ts).map Contact.email).Nodup := by
  have hperm : List.Perm (ContactUpdates l ts) (l.filter (fun c => ts < c.dateModified)) :=
    List.mergeSort_perm _ _
  have hsub : List.Sublist (l.filter (fun c => ts < c.dateModified)) l := List.filter_sublist l
  have h1 : ((l.filter (fun c => ts < c.dateModified)).map Contact.email).Nodup :=
    (hsub.map Contact.email).nodup hem
  exact ((hperm.map Contact.email).nodup_iff).mpr h1

theorem contactUpdates_pairwise_lt (l : List Contact) (ts : Int)
    (hem : (l.map Contact.email).Nodup) :
    (ContactUpdates l ts).Pairwise lexLt := by
  have hle : (ContactUpdates l ts).Pairwise (fun a b => lexLe a b = true) :=
    List.sorted_mergeSort lexLe_trans lexLe_total _
  have hne : (ContactUpdates l ts).Pairwise (fun a b => a.email ≠ b.email) :=
    List.pairwise_map.mp (contactUpdates_email_nodup l ts hem)
  refine (hle.and hne).imp ?_
  rintro a b ⟨h1, h2⟩
  unfold lexLe at h1
  unfold lexLt
  by_cases e : a.dateModified = b.dateModified
  · rw [if_pos e] at h1
    exact Or.inr ⟨e, lt_of_le_of_ne (of_decide_eq_true h1) h2⟩
  · rw [if_neg e] at h1
    exact Or.inl (of_decide_eq_true h1)

/-- C9: `ContactUpdates(user, ts)` returns exactly the contacts in the
user's contact list with `DateModified > ts`, sorted ascending by
`DateModified` with ties broken by ascending email; consequently, for
cursors `ts ≤ ts'` (and the per-user unique contact emails), the result for
`ts'` is a sub-sequence of the result for `ts`. -/
theorem c9_contact_updates (l : List Contact) (ts tss : Int)
    (hts : ts ≤ tss) (hem : (l.map Contact.email).Nodup) :
    (∀ c, c ∈ ContactUpdates l ts ↔ (c ∈ l ∧ ts < c.dateModified)) ∧
    (ContactUpdates l ts).Pairwise (fun a b => lexLe a b = true) ∧
    List.Sublist (ContactUpdates l tss) (ContactUpdates l ts) := by
  refine ⟨?_, List.sorted_mergeSort lexLe_trans lexLe_total _, ?_⟩
  · intro c
    unfold ContactUpdates
    rw [List.mem_mergeSort, List.mem_filter]
    simp
  · apply sublist_of_sorted_subset _ _ (contactUpdates_pairwise_lt l tss hem)
      (contactUpdates_pairwise_lt l ts hem)
    intro x hx
    unfold ContactUpdates at hx ⊢
    rw [List.mem_mergeSort, List.mem_filter] at hx ⊢
    refine ⟨hx.1, ?_⟩
    have := of_decide_eq_true hx.2
    exact decide_eq_true (by omega)

/-- C9 witness: the query evaluated at a concrete two-contact list and the
cursors 0 and 6. -/
theorem c9_contact_updates_witness :
    (0 : Int) ≤ 6 ∧
    (([⟨2, "b", "pk", 5⟩, ⟨3, "a", "pk", 7⟩] : List Contact).map Contact.email).Nodup ∧
    List.Sublist (ContactUpdates [⟨2, "b", "pk", 5⟩, ⟨3, "a", "pk", 7⟩] 6)
      (ContactUpdates [⟨2, "b", "pk", 5⟩, ⟨3, "a", "pk", 7⟩] 0) :=
  ⟨by decide, by decide,
    (c9_contact_updates [⟨2, "b", "pk", 5⟩, ⟨3, "a", "pk", 7⟩] 0 6
      (by decide) (by decide)).2.2⟩

end Database

namespace Masterkey

